import Mathlib

/-! Verification of sno6/chat: the streaming decoder of `internal/openai/openai.go`.

A shallow embedding of `Stream.Next`, `parseChunk`, `Service.ChatSync` and of the two
consumer loops of `cmd/chat/main.go`, followed by theorems about them.

Modelling conventions

* A Go `[]byte` is a `List Byte` with `Byte := Nat`; the scan only ever compares a byte
  with the two literals `'{'` (123) and `'}'` (125).
* The transport (`s.rsp`, an `io.ReadCloser`) is not part of the state: every call of
  `Next` performs exactly one `s.rsp.Read(buf)`, and the outcome `(buf[:n], err)` of
  that read is passed to the model of `Next` as a `ReadResult`.
* The counter `count` is a Go `int`.  Its absolute value never exceeds the number of
  bytes scanned, which is at most `len(s.buf)`, itself a Go `int`; so it never wraps and
  is modelled by `Int`.
* `encoding/json` is outside the repository: the decoders are parameters.
* A run-time panic (index out of range) is the result `none`.
-/

namespace Chat

/-- One element of a Go `[]byte`. -/
abbrev Byte := Nat

/-- The byte literal of an opening brace, 0x7b. -/
def lbrace : Byte := 123

/-- The byte literal of a closing brace, 0x7d. -/
def rbrace : Byte := 125

/-- The bytes of an ASCII string literal. -/
def bytes (s : String) : List Byte := s.toList.map Char.toNat

/-- A Go `error` value: `io.EOF` or any other error with its message. -/
inductive GoError where
  | eof
  | msg (text : String)
  deriving DecidableEq, Repr

/-- The method `Error()` of an error value. -/
def GoError.Error : GoError → String
  | .eof => "EOF"
  | .msg text => text

/-- The inner anonymous struct `Delta` of `completionsStreamChunk`. -/
structure StreamDelta where
  Content : String
  deriving DecidableEq, Repr

/-- The anonymous element struct of `completionsStreamChunk.Choices`. -/
structure StreamChoice where
  Delta : StreamDelta
  deriving DecidableEq, Repr

/-- The struct `completionsStreamChunk`. -/
structure completionsStreamChunk where
  Choices : List StreamChoice
  deriving DecidableEq, Repr

/-- The struct `completionsMessage`. -/
structure completionsMessage where
  Role : String
  Content : String
  deriving DecidableEq, Repr

/-- The struct `completionsChoice`. -/
structure completionsChoice where
  Message : completionsMessage
  deriving DecidableEq, Repr

/-- The struct `completionsResponse`. -/
structure completionsResponse where
  Choices : List completionsChoice
  deriving DecidableEq, Repr

/-- The type of `json.Unmarshal(objChunk, &chunk)`: an error, or the filled record. -/
abbrev Unmarshal := List Byte → Except GoError completionsStreamChunk

/-- The type of `json.NewDecoder(rsp.Body).Decode(&cr)` on the bytes of the body. -/
abbrev Decode := List Byte → Except GoError completionsResponse

deriving instance DecidableEq for Except

/-- The struct `Stream` without its reader `rsp`, whose reads are inputs of `Next`. -/
structure Stream where
  err : Option GoError
  buf : List Byte
  deriving DecidableEq, Repr

/-- The outcome of one `s.rsp.Read(buf)`: the bytes `buf[:n]` and the error.  The
scratch slice bounds `n` by `scratchSize`; nothing below depends on that bound. -/
structure ReadResult where
  data : List Byte
  err : Option GoError
  deriving DecidableEq, Repr

/-- A successful read delivering `d`. -/
def okRead (d : List Byte) : ReadResult := ⟨d, none⟩

/-- The read that reports the end of the stream. -/
def eofRead : ReadResult := ⟨[], some GoError.eof⟩

/-- The capacity of the scratch slice of `Next`, `2<<10`. -/
def scratchSize : Nat := 2 <<< 10

/-- The method `Stream.Err`. -/
def Stream.Err (s : Stream) : Option GoError := s.err

/-- The method `Stream.Done`: `s.err != nil`. -/
def Stream.Done (s : Stream) : Bool := s.err.isSome

/-- The function `parseChunk`: `none` is the index-out-of-range panic of `chunk.Choices[0]`. -/
def parseChunk (unmarshal : Unmarshal) (objChunk : List Byte) : Option String :=
  match unmarshal objChunk with
  | .error _ => some ""
  | .ok chunk =>
    match chunk.Choices with
    | [] => none
    | c :: _ => some c.Delta.Content

/-- The loop of `Next` from index `i` on, `rest` being `s.buf[i:]`: the pair
`(start, i)` at which the loop returns, or `none` when it runs off the end. -/
def scanFrom : List Byte → Nat → Int → Nat → Option (Nat × Nat)
  | [], _, _, _ => none
  | b :: rest, i, count, start =>
    let count1 := if b = lbrace then count + 1 else count
    let start1 := if b = lbrace ∧ count1 = 1 then i else start
    if b = rbrace then
      if count1 - 1 = 0 then some (start1, i)
      else scanFrom rest (i + 1) (count1 - 1) start1
    else scanFrom rest (i + 1) count1 start1

/-- The scan of `Next` over the whole buffer, `var i, count, start int` all zero: the
object `s.buf[start : i+1]` and the new buffer `s.buf[i+1:]`, when the loop returns. -/
def extract (buf : List Byte) : Option (List Byte × List Byte) :=
  match scanFrom buf 0 0 0 with
  | some (start, i) => some ((buf.take (i + 1)).drop start, buf.drop (i + 1))
  | none => none

/-- The method `Stream.Next`, given the outcome `r` of its one read: the stream
afterwards and the returned string (`none`: the panic of `parseChunk`). -/
def Next (unmarshal : Unmarshal) (s : Stream) (r : ReadResult) : Stream × Option String :=
  match r.err with
  | some e => ({ s with err := some e }, some "")
  | none =>
    match extract (s.buf ++ r.data) with
    | some (obj, rest) => ({ s with buf := rest }, parseChunk unmarshal obj)
    | none => ({ s with buf := s.buf ++ r.data }, some "")

/-- The stream that `ChatAsync` returns: `&Stream{rsp: rsp.Body}`. -/
def newStream : Stream := ⟨none, []⟩

/-- The loop of `streamChat` over a transport that delivers the reads of the list in
order and reports end-of-stream afterwards: the text printed, or `none` on a panic. -/
def streamChat (unmarshal : Unmarshal) : List (List Byte) → Stream → Option String
  | [], s =>
    if s.Done then some ""
    else (Next unmarshal s eofRead).2
  | d :: t, s =>
    if s.Done then some ""
    else
      match Next unmarshal s (okRead d) with
      | (s1, some token) => (streamChat unmarshal t s1).map (fun out => token ++ out)
      | (_, none) => none

/-- The objects that the calls of `Next` in the loop of `streamChat` hand to
`parseChunk`, in order, over the same transport; the loop ends with the object on
which `parseChunk` panics, and nothing is extracted by the call that reads
end-of-stream. -/
def extractedFrames (unmarshal : Unmarshal) : List (List Byte) → Stream → List (List Byte)
  | [], _ => []
  | d :: t, s =>
    if s.Done then []
    else
      match extract (s.buf ++ d) with
      | some (obj, rest) =>
        match parseChunk unmarshal obj with
        | some _ => obj :: extractedFrames unmarshal t { s with buf := rest }
        | none => [obj]
      | none => extractedFrames unmarshal t { s with buf := s.buf ++ d }

/-- The method `Service.ChatSync`, given the outcome of `callCompletions` (an error or
the bytes of the body): the returned string and error. -/
def ChatSync (decode : Decode) (call : Except GoError (List Byte)) : String × Option GoError :=
  match call with
  | .error e => ("", some e)
  | .ok body =>
    match decode body with
    | .error _ => ("", none)
    | .ok cr =>
      match cr.Choices with
      | [] => ("", some (GoError.msg "chatsync: empty choices list in response"))
      | c :: _ => (c.Message.Content, none)

/-- The function `syncChat`: the text printed and the exit status of the process. -/
def syncChat (decode : Decode) (call : Except GoError (List Byte)) : String × Nat :=
  match ChatSync decode call with
  | (_, some e) => ("chat: something went wrong: " ++ e.Error ++ "\n", 1)
  | (response, none) => (response ++ "\n", 0)

/-- Nesting depth of a span: its opening braces minus its closing braces. -/
def depth (bs : List Byte) : Int := (bs.count lbrace : Int) - (bs.count rbrace : Int)

/-- A brace-balanced object: it begins with an opening brace, ends with a closing
brace, has as many of the one as of the other, and strictly more opening than closing
braces in each non-empty proper prefix. -/
def Balanced (o : List Byte) : Prop :=
  o.head? = some lbrace ∧ o.getLast? = some rbrace ∧ depth o = 0 ∧
    ∀ k, k < o.length → 0 < k → 0 < depth (o.take k)

instance (o : List Byte) : Decidable (Balanced o) := by
  unfold Balanced; infer_instance

/-- The frame carrying the fragment `He`. -/
def frameHe : List Byte :=
  bytes "\x7b\"choices\":[\x7b\"delta\":\x7b\"content\":\"He\"\x7d\x7d]\x7d"

/-- The frame carrying the fragment `llo`. -/
def frameLlo : List Byte :=
  bytes "\x7b\"choices\":[\x7b\"delta\":\x7b\"content\":\"llo\"\x7d\x7d]\x7d"

/-- The frame carrying the fragment `hi`. -/
def frameHi : List Byte :=
  bytes "\x7b\"choices\":[\x7b\"delta\":\x7b\"content\":\"hi\"\x7d\x7d]\x7d"

/-- The first part of `frameHi`, cut inside the string literal. -/
def frameHiHead : List Byte :=
  bytes "\x7b\"choices\":[\x7b\"delta\":\x7b\"content\":\"hi"

/-- The second part of `frameHi`. -/
def frameHiTail : List Byte := bytes "\"\x7d\x7d]\x7d"

/-- The empty JSON object. -/
def frameEmpty : List Byte := bytes "\x7b\x7d"

/-- A brace-balanced span that is not JSON. -/
def frameBad : List Byte := bytes "\x7b\x7bx\x7d\x7d"

/-- A JSON object with an opening brace inside a string literal. -/
def frameBraceInString : List Byte := bytes "\x7b\"content\": \"a \x7b b\"\x7d"

/-- The results of `json.Unmarshal` into a `completionsStreamChunk` on the frames
above: the three delta frames decode to one choice, the empty object to a record
without choices, and `frameBad`, which is not JSON, is a syntax error.  Inputs outside
this table are not used below. -/
def sampleUnmarshal : Unmarshal := fun b =>
  if b = frameHe then .ok ⟨[⟨⟨"He"⟩⟩]⟩
  else if b = frameLlo then .ok ⟨[⟨⟨"llo"⟩⟩]⟩
  else if b = frameHi then .ok ⟨[⟨⟨"hi"⟩⟩]⟩
  else if b = frameEmpty then .ok ⟨[]⟩
  else if b = frameBad then .error (GoError.msg "invalid character")
  else .error (GoError.msg "invalid character")

/-- A response body that is not JSON. -/
def bodyHtml : List Byte := bytes "<html>"

/-- A well-formed response body. -/
def bodyHi : List Byte :=
  bytes "\x7b\"choices\":[\x7b\"message\":\x7b\"role\":\"assistant\",\"content\":\"hi\"\x7d\x7d]\x7d"

/-- The results of decoding the two bodies above into a `completionsResponse`; the
body that is not JSON is a syntax error.  Inputs outside this table are not used
below. -/
def sampleDecode : Decode := fun b =>
  if b = bodyHi then .ok ⟨[⟨⟨"assistant", "hi"⟩⟩]⟩
  else if b = bodyHtml then .error (GoError.msg "invalid character")
  else .error (GoError.msg "invalid character")


/-- An object under construction: it begins with an opening brace, its depth is
`count`, and the depth of each of its non-empty prefixes is positive. -/
def OpenSeg (seg : List Byte) (count : Int) : Prop :=
  seg.head? = some lbrace ∧ depth seg = count ∧
    ∀ k, 0 < k → k ≤ seg.length → 0 < depth (seg.take k)

/-- The loop invariant of `Next` after the bytes `pre`: while the counter is positive,
`start` is the index of the opening brace of an object under construction that runs
to the end of `pre`. -/
def ScanInv (pre : List Byte) (count : Int) (start : Nat) : Prop :=
  0 < count → ∃ pre0 seg, pre = pre0 ++ seg ∧ start = pre0.length ∧ OpenSeg seg count

/-! ## Depth arithmetic -/

theorem lbrace_ne_rbrace : lbrace ≠ rbrace := by decide

theorem depth_nil : depth [] = 0 := by simp [depth]

theorem depth_cons (b : Byte) (bs : List Byte) :
    depth (b :: bs) =
      (if b = lbrace then 1 else 0) - (if b = rbrace then 1 else 0) + depth bs := by
  simp only [depth, List.count_cons, beq_iff_eq]
  split_ifs <;> push_cast <;> ring

theorem depth_append (a b : List Byte) : depth (a ++ b) = depth a + depth b := by
  simp only [depth, List.count_append]
  push_cast
  ring

theorem depth_singleton (b : Byte) :
    depth [b] = (if b = lbrace then 1 else 0) - (if b = rbrace then 1 else 0) := by
  rw [depth_cons, depth_nil, add_zero]

/-! ## The scan loop -/

/-- One iteration of the loop on a byte that does not make it return: the counter
moves by the depth of the byte. -/
theorem scanFrom_cons_open (b : Byte) (rest : List Byte) (i : Nat) (count : Int) (start : Nat)
    (h0 : 0 < count) (h1 : 0 < count + depth [b]) :
    scanFrom (b :: rest) i count start = scanFrom rest (i + 1) (count + depth [b]) start := by
  rw [depth_singleton] at h1
  rw [depth_singleton]
  by_cases hl : b = lbrace
  · have hr : b ≠ rbrace := fun h => lbrace_ne_rbrace (hl ▸ h)
    have hc : ¬ (count + 1 = 1) := by omega
    simp [scanFrom, hl, lbrace_ne_rbrace, hc]
  · by_cases hr : b = rbrace
    · subst hr
      have hne : rbrace ≠ lbrace := fun h => lbrace_ne_rbrace h.symm
      simp only [hne, if_false, if_true] at h1
      have hc : ¬ (count - 1 = 0) := by omega
      have e : count + ((0 : Int) - 1) = count - 1 := by ring
      simp only [scanFrom, hne, false_and, if_false, if_true, hc, e]
    · simp [scanFrom, hl, hr]

/-- Scanning a span during which the counter stays positive neither returns nor moves
`start`. -/
theorem scanFrom_open (xs rest : List Byte) :
    ∀ (i : Nat) (count : Int) (start : Nat),
      (∀ k, k ≤ xs.length → 0 < count + depth (xs.take k)) →
      scanFrom (xs ++ rest) i count start =
        scanFrom rest (i + xs.length) (count + depth xs) start := by
  induction xs with
  | nil => intro i count start _; simp [depth_nil]
  | cons x xs ih =>
    intro i count start h
    have h0 : 0 < count := by simpa [depth_nil] using h 0 (Nat.zero_le _)
    have h1 : 0 < count + depth [x] := by
      simpa using h 1 (by simp)
    rw [List.cons_append, scanFrom_cons_open x _ i count start h0 h1, ih]
    · rw [depth_cons x xs, depth_singleton, List.length_cons]
      congr 1
      · omega
      · ring
    · intro k hk
      have := h (k + 1) (by simpa using hk)
      rw [List.take_succ_cons, depth_cons] at this
      rw [depth_singleton]
      linarith

/-- A balanced object is an opening brace, a middle part over which the depth stays
above `-1`, and a closing brace. -/
theorem Balanced.decompose {o : List Byte} (h : Balanced o) :
    ∃ mid, o = lbrace :: (mid ++ [rbrace]) ∧ depth mid = 0 ∧
      ∀ k, k ≤ mid.length → 0 < 1 + depth (mid.take k) := by
  obtain ⟨hhead, hlast, hdepth, hpre⟩ := h
  cases o with
  | nil => simp at hhead
  | cons b t =>
    simp only [List.head?_cons, Option.some.injEq] at hhead
    subst hhead
    rcases List.eq_nil_or_concat t with rfl | ⟨mid, x, ht⟩
    on_goal 2 => rw [List.concat_eq_append] at ht; subst ht
    · rw [depth_singleton] at hdepth
      simp [lbrace_ne_rbrace] at hdepth
    · have hx : x = rbrace := by
        have : (lbrace :: (mid ++ [x])).getLast? = some x := by
          rw [← List.cons_append, List.getLast?_append]
          simp
        rw [this] at hlast
        exact Option.some.inj hlast
      subst hx
      refine ⟨mid, rfl, ?_, ?_⟩
      · rw [depth_cons, depth_append, depth_singleton] at hdepth
        have hne : rbrace ≠ lbrace := fun h => lbrace_ne_rbrace h.symm
        simp only [lbrace_ne_rbrace, hne, if_true, if_false] at hdepth
        linarith
      · intro k hk
        have := hpre (k + 1) (by simp; omega) (Nat.succ_pos k)
        rw [List.take_succ_cons, depth_cons, List.take_append_of_le_length hk] at this
        simp only [lbrace_ne_rbrace, if_true, if_false] at this
        linarith

/-- The loop started with a zero counter on a balanced object returns at the last
byte of the object, with `start` at its first byte. -/
theorem scanFrom_balanced {o : List Byte} (h : Balanced o) (rest : List Byte)
    (i start : Nat) :
    scanFrom (o ++ rest) i 0 start = some (i, i + o.length - 1) := by
  obtain ⟨mid, rfl, hd, hpre⟩ := h.decompose
  have hne : rbrace ≠ lbrace := fun h => lbrace_ne_rbrace h.symm
  have step1 : scanFrom (lbrace :: (mid ++ [rbrace]) ++ rest) i 0 start
      = scanFrom (mid ++ (rbrace :: rest)) (i + 1) 1 i := by
    simp [scanFrom, lbrace_ne_rbrace]
  rw [step1, scanFrom_open mid (rbrace :: rest) (i + 1) 1 i hpre, hd]
  simp only [scanFrom, hne, false_and, if_false, if_true, add_zero, sub_self]
  simp
  omega

/-- The loop runs off the end of a proper prefix of a balanced object. -/
theorem scanFrom_cut {p1 p2 : List Byte} (h : Balanced (p1 ++ p2))
    (h2 : p2 ≠ []) (i start : Nat) : scanFrom p1 i 0 start = none := by
  obtain ⟨mid, ho, _, hpre⟩ := h.decompose
  cases p1 with
  | nil => rfl
  | cons b xs =>
    rw [List.cons_append] at ho
    obtain ⟨hb, hxs⟩ := List.cons.inj ho
    subst hb
    have hlen : xs.length ≤ mid.length := by
      have := congrArg List.length hxs
      have : 0 < p2.length := List.length_pos.mpr h2
      simp at *
      omega
    have hx : xs = mid.take xs.length := by
      have := congrArg (List.take xs.length) hxs
      rwa [List.take_left', List.take_append_of_le_length hlen] at this
      rfl
    have step1 : scanFrom (lbrace :: xs) i 0 start = scanFrom (xs ++ []) (i + 1) 1 i := by
      simp [scanFrom, lbrace_ne_rbrace]
    rw [step1, scanFrom_open xs [] (i + 1) 1 i]
    · rfl
    · intro k hk
      rw [hx, List.take_take]
      exact hpre _ (le_trans (min_le_left _ _) (le_trans hk hlen))

/-- A balanced object at the front of the buffer is the object extracted, and what
follows it is the new buffer. -/
theorem extract_balanced_append {o : List Byte} (h : Balanced o) (rest : List Byte) :
    extract (o ++ rest) = some (o, rest) := by
  have hpos : 0 < o.length := by
    obtain ⟨mid, rfl, _, _⟩ := h.decompose
    simp
  have e : 0 + o.length - 1 + 1 = o.length := by omega
  simp only [extract, scanFrom_balanced h rest 0 0, e, List.drop_zero]
  rw [List.take_left', List.drop_left']
  · rfl
  · rfl

/-- Nothing is extracted from a proper prefix of a balanced object. -/
theorem extract_cut {p1 p2 : List Byte} (h : Balanced (p1 ++ p2))
    (h2 : p2 ≠ []) : extract p1 = none := by
  simp only [extract, scanFrom_cut h h2 0 0]

/-! ## Soundness of the scan: whatever it returns is balanced -/

theorem OpenSeg.single : OpenSeg [lbrace] 1 := by
  refine ⟨rfl, ?_, ?_⟩
  · rw [depth_singleton]; simp [lbrace_ne_rbrace]
  · intro k hk hle
    have hk1 : k = 1 := by simp at hle; omega
    subst hk1
    rw [List.take_one, List.head?_cons, Option.toList, depth_singleton]
    simp [lbrace_ne_rbrace]

theorem OpenSeg.snoc {seg : List Byte} {count : Int} (h : OpenSeg seg count) (b : Byte)
    (hb : 0 < count + depth [b]) : OpenSeg (seg ++ [b]) (count + depth [b]) := by
  obtain ⟨hhead, hdepth, hpre⟩ := h
  refine ⟨?_, ?_, ?_⟩
  · cases seg with
    | nil => simp at hhead
    | cons x xs => simpa using hhead
  · rw [depth_append, hdepth]
  · intro k hk hle
    by_cases hlt : k ≤ seg.length
    · rw [List.take_append_of_le_length hlt]
      exact hpre k hk hlt
    · have hk1 : (seg ++ [b]).length ≤ k := by simp at hle ⊢; omega
      rw [List.take_of_length_le hk1, depth_append, hdepth]
      exact hb

theorem OpenSeg.close {seg : List Byte} (h : OpenSeg seg 1) : Balanced (seg ++ [rbrace]) := by
  obtain ⟨hhead, hdepth, hpre⟩ := h
  have hne : rbrace ≠ lbrace := fun h => lbrace_ne_rbrace h.symm
  refine ⟨?_, ?_, ?_, ?_⟩
  · cases seg with
    | nil => simp at hhead
    | cons x xs => simpa using hhead
  · simp
  · rw [depth_append, hdepth, depth_singleton]
    simp [hne]
  · intro k hlt hk
    have hle : k ≤ seg.length := by simp at hlt; omega
    rw [List.take_append_of_le_length hle]
    exact hpre k hk hle

theorem ScanInv.init (start : Nat) : ScanInv [] 0 start := fun h => absurd h (lt_irrefl 0)

/-- Whatever pair the loop returns delimits a balanced object of the buffer. -/
theorem scanFrom_sound (rest : List Byte) :
    ∀ (pre : List Byte) (count : Int) (start st j : Nat),
      ScanInv pre count start →
      scanFrom rest pre.length count start = some (st, j) →
      ∃ pre0 obj tail, pre ++ rest = pre0 ++ obj ++ tail ∧ st = pre0.length ∧
        j + 1 = pre0.length + obj.length ∧ Balanced obj := by
  induction rest with
  | nil => intro pre count start st j _ h; simp [scanFrom] at h
  | cons b rest ih =>
    intro pre count start st j hinv h
    have hlen : (pre ++ [b]).length = pre.length + 1 := by simp
    have happ : pre ++ b :: rest = (pre ++ [b]) ++ rest := by simp
    have hne : rbrace ≠ lbrace := fun h => lbrace_ne_rbrace h.symm
    by_cases hl : b = lbrace
    · subst hl
      simp only [scanFrom, lbrace_ne_rbrace, true_and, if_true, if_false] at h
      rw [← hlen] at h
      rw [happ]
      refine ih (pre ++ [lbrace]) _ _ st j ?_ h
      intro hpos
      by_cases hc : count + 1 = 1
      · refine ⟨pre, [lbrace], rfl, by simp [hc], ?_⟩
        rw [hc]
        exact OpenSeg.single
      · obtain ⟨pre0, seg, hp, hs, hseg⟩ := hinv (by omega)
        refine ⟨pre0, seg ++ [lbrace], by rw [hp, List.append_assoc], by simp [hc, hs], ?_⟩
        have hd : depth [lbrace] = 1 := by rw [depth_singleton]; simp [lbrace_ne_rbrace]
        have := hseg.snoc lbrace (by rw [hd]; exact hpos)
        rwa [hd] at this
    · by_cases hr : b = rbrace
      · subst hr
        simp only [scanFrom, hne, false_and, if_true, if_false] at h
        by_cases hc : count - 1 = 0
        · simp only [hc, if_true, Option.some.injEq, Prod.mk.injEq] at h
          obtain ⟨hst, hj⟩ := h
          obtain ⟨pre0, seg, hp, hs, hseg⟩ := hinv (by omega)
          have hc1 : count = 1 := by omega
          rw [hc1] at hseg
          refine ⟨pre0, seg ++ [rbrace], rest, ?_, ?_, ?_, hseg.close⟩
          · rw [hp]; simp
          · rw [← hst, hs]
          · rw [← hj, hp]; simp; omega
        · simp only [hc, if_false] at h
          rw [← hlen] at h
          rw [happ]
          refine ih (pre ++ [rbrace]) _ _ st j ?_ h
          intro hpos
          obtain ⟨pre0, seg, hp, hs, hseg⟩ := hinv (by omega)
          refine ⟨pre0, seg ++ [rbrace], by rw [hp, List.append_assoc], hs, ?_⟩
          have hd : depth [rbrace] = -1 := by rw [depth_singleton]; simp [hne]
          have := hseg.snoc rbrace (by rw [hd]; omega)
          rw [hd] at this
          exact this
      · simp only [scanFrom, hl, hr, false_and, if_false] at h
        rw [← hlen] at h
        rw [happ]
        refine ih (pre ++ [b]) _ _ st j ?_ h
        intro hpos
        obtain ⟨pre0, seg, hp, hs, hseg⟩ := hinv hpos
        refine ⟨pre0, seg ++ [b], by rw [hp, List.append_assoc], hs, ?_⟩
        have hd : depth [b] = 0 := by rw [depth_singleton]; simp [hl, hr]
        have := hseg.snoc b (by rw [hd]; omega)
        rwa [hd, add_zero] at this

/-- Whatever `extract` returns is a balanced span of the buffer, followed in the
buffer by exactly the new buffer. -/
theorem extract_sound {buf obj rest : List Byte} (h : extract buf = some (obj, rest)) :
    ∃ pre, buf = pre ++ obj ++ rest ∧ Balanced obj := by
  unfold extract at h
  cases hs : scanFrom buf 0 0 0 with
  | none => rw [hs] at h; simp at h
  | some p =>
    obtain ⟨st, j⟩ := p
    rw [hs] at h
    simp only [Option.some.injEq, Prod.mk.injEq] at h
    obtain ⟨hobj, hrest⟩ := h
    obtain ⟨pre0, o, tail, hb, hst, hj, hbal⟩ :=
      scanFrom_sound buf [] 0 0 st j (ScanInv.init 0) hs
    rw [List.nil_append] at hb
    have e1 : buf.take (j + 1) = pre0 ++ o := by
      rw [hb, hj, ← List.length_append, List.take_left']
      rfl
    have e2 : buf.drop (j + 1) = tail := by
      rw [hb, hj, ← List.length_append, List.drop_left']
      rfl
    rw [e1, hst, List.drop_left'] at hobj
    · rw [e2] at hrest
      subst hobj
      subst hrest
      exact ⟨pre0, hb, hbal⟩
    · rfl

/-! ## The claims -/

/-- Claim C1, refuted as stated: after one read has delivered `frameHe ++ frameLlo`
into the empty buffer of a fresh stream, the first call returns `He` and leaves
`frameLlo` buffered; the next call reads the transport first, so at end-of-stream it
returns the empty string, becomes done and never hands the buffered `frameLlo` (which
decodes to `llo`) to the decoder, and on a successful read the bytes read show up in
the buffer. -/
theorem Next_reads_before_scanning :
    Next sampleUnmarshal newStream (okRead (frameHe ++ frameLlo))
        = (⟨none, frameLlo⟩, some "He") ∧
      Next sampleUnmarshal ⟨none, frameLlo⟩ eofRead
        = (⟨some GoError.eof, frameLlo⟩, some "") ∧
      parseChunk sampleUnmarshal frameLlo = some "llo" ∧
      Next sampleUnmarshal ⟨none, frameLlo⟩ (okRead frameHi)
        = (⟨none, frameHi⟩, some "llo") := by
  decide

/-- Claim C1, amended: when one read delivers two concatenated balanced objects into
an empty buffer, the first call of `Next` yields the first object and leaves the second
in the buffer, and the next call, whose own read succeeds with any bytes `d`, yields
the second object and leaves `d` in the buffer. -/
theorem Next_two_objects_one_read (unmarshal : Unmarshal) (s : Stream)
    (o1 o2 d : List Byte) (hs : s.buf = []) (h1 : Balanced o1) (h2 : Balanced o2) :
    Next unmarshal s (okRead (o1 ++ o2))
        = ({ s with buf := o2 }, parseChunk unmarshal o1) ∧
      Next unmarshal { s with buf := o2 } (okRead d)
        = ({ s with buf := d }, parseChunk unmarshal o2) := by
  constructor
  · simp only [Next, okRead, hs, List.nil_append, extract_balanced_append h1 o2]
  · simp only [Next, okRead, extract_balanced_append h2 d]

/-- The amended claim C1 at the frames `He` and `llo`, the second read delivering no bytes. -/
theorem Next_two_objects_one_read_witness :
    Balanced frameHe ∧ Balanced frameLlo ∧
      Next sampleUnmarshal newStream (okRead (frameHe ++ frameLlo))
        = (⟨none, frameLlo⟩, parseChunk sampleUnmarshal frameHe) ∧
      Next sampleUnmarshal ⟨none, frameLlo⟩ (okRead [])
        = (⟨none, []⟩, parseChunk sampleUnmarshal frameLlo) :=
  ⟨by decide, by decide,
    Next_two_objects_one_read sampleUnmarshal newStream frameHe frameLlo [] rfl
      (by decide) (by decide)⟩

/-- Claim C2, the code at a failing input: two objects (N = 2) delivered by one read
(M = 1) and followed by end-of-stream. The loop of `streamChat` extracts the first
object only and prints `He`; the second object stays in the buffer when the loop
stops. Delivered by two reads, the same objects are both extracted. -/
theorem streamChat_drops_buffered_object :
    extractedFrames sampleUnmarshal [frameHe ++ frameLlo] newStream = [frameHe] ∧
      streamChat sampleUnmarshal [frameHe ++ frameLlo] newStream = some "He" ∧
      (Next sampleUnmarshal
        (Next sampleUnmarshal newStream (okRead (frameHe ++ frameLlo))).1 eofRead).1
          = ⟨some GoError.eof, frameLlo⟩ ∧
      extractedFrames sampleUnmarshal [frameHe, frameLlo] newStream = [frameHe, frameLlo] ∧
      streamChat sampleUnmarshal [frameHe, frameLlo] newStream = some "Hello" := by
  decide

/-- Claim C3: a balanced object split into `p1` and a non-empty `p2`, delivered by two
consecutive successful reads into an empty buffer of a stream that is not done.
The first call of `Next` extracts nothing, returns the empty string, leaves the stream
not done and the buffer equal to `p1`; the second call hands the whole object
`p1 ++ p2` to the decoder and leaves the buffer empty. -/
theorem Next_split_across_reads (unmarshal : Unmarshal) (s : Stream) (p1 p2 : List Byte)
    (hs : s.buf = []) (he : s.err = none) (h : Balanced (p1 ++ p2)) (h2 : p2 ≠ []) :
    extract (s.buf ++ p1) = none ∧
      Next unmarshal s (okRead p1) = ({ s with buf := p1 }, some "") ∧
      (Next unmarshal s (okRead p1)).1.Done = false ∧
      (Next unmarshal s (okRead p1)).1.buf = p1 ∧
      Next unmarshal (Next unmarshal s (okRead p1)).1 (okRead p2)
        = ({ s with buf := [] }, parseChunk unmarshal (p1 ++ p2)) := by
  have hcut : extract (s.buf ++ p1) = none := by
    rw [hs, List.nil_append]; exact extract_cut h h2
  have hfirst : Next unmarshal s (okRead p1) = ({ s with buf := p1 }, some "") := by
    simp only [Next, okRead, hs, List.nil_append, extract_cut h h2]
  refine ⟨hcut, hfirst, ?_, ?_, ?_⟩
  · rw [hfirst]; simp [Stream.Done, he]
  · rw [hfirst]
  · rw [hfirst]
    have := extract_balanced_append h []
    rw [List.append_nil] at this
    simp only [Next, okRead, this]

/-- The two reads quoted in claim C3, into the stream that `ChatAsync` returns. -/
theorem Next_split_across_reads_witness :
    frameHiHead ++ frameHiTail = frameHi ∧ Balanced (frameHiHead ++ frameHiTail) ∧
      (extract (newStream.buf ++ frameHiHead) = none ∧
      Next sampleUnmarshal newStream (okRead frameHiHead) = (⟨none, frameHiHead⟩, some "") ∧
      (Next sampleUnmarshal newStream (okRead frameHiHead)).1.Done = false ∧
      (Next sampleUnmarshal newStream (okRead frameHiHead)).1.buf = frameHiHead ∧
      Next sampleUnmarshal (Next sampleUnmarshal newStream (okRead frameHiHead)).1
          (okRead frameHiTail)
        = (⟨none, []⟩, parseChunk sampleUnmarshal (frameHiHead ++ frameHiTail))) ∧
      parseChunk sampleUnmarshal (frameHiHead ++ frameHiTail) = some "hi" :=
  ⟨by decide, by decide,
    Next_split_across_reads sampleUnmarshal newStream frameHiHead frameHiTail rfl rfl
      (by decide) (by decide),
    by decide⟩

/-- Claim C4: whenever the scan of `Next` finds an object `obj` in the old buffer
followed by the bytes read, the value returned is `parseChunk` of `obj`, `obj` is a
contiguous span of those bytes from an opening brace through a closing brace, and the
buffer afterwards is exactly what followed the span; and one read of exactly one
balanced object into an empty buffer hands that object over and leaves the buffer
empty. -/
theorem Next_extracts_verbatim (unmarshal : Unmarshal) (s : Stream) (d : List Byte) :
    (∀ obj rest, extract (s.buf ++ d) = some (obj, rest) →
      Next unmarshal s (okRead d) = ({ s with buf := rest }, parseChunk unmarshal obj) ∧
      (∃ pre, s.buf ++ d = pre ++ obj ++ rest) ∧
      obj.head? = some lbrace ∧ obj.getLast? = some rbrace) ∧
    (s.buf = [] → Balanced d →
      extract (s.buf ++ d) = some (d, []) ∧
      Next unmarshal s (okRead d) = ({ s with buf := [] }, parseChunk unmarshal d)) := by
  constructor
  · intro obj rest h
    obtain ⟨pre, hpre, hbal⟩ := extract_sound h
    refine ⟨?_, ⟨pre, hpre⟩, hbal.1, hbal.2.1⟩
    simp only [Next, okRead, h]
  · intro hs hbal
    have := extract_balanced_append hbal []
    rw [List.append_nil] at this
    rw [hs, List.nil_append]
    refine ⟨this, ?_⟩
    simp only [Next, okRead, hs, List.nil_append, this]

/-- An object extracted from behind two buffered bytes with another object after it,
and a single object read into the empty buffer. -/
theorem Next_extracts_verbatim_witness :
    (extract (bytes "ab" ++ (frameHe ++ frameLlo)) = some (frameHe, frameLlo) ∧
      Next sampleUnmarshal ⟨none, bytes "ab"⟩ (okRead (frameHe ++ frameLlo))
        = (⟨none, frameLlo⟩, parseChunk sampleUnmarshal frameHe) ∧
      (∃ pre, bytes "ab" ++ (frameHe ++ frameLlo) = pre ++ frameHe ++ frameLlo) ∧
      frameHe.head? = some lbrace ∧ frameHe.getLast? = some rbrace) ∧
    (Balanced frameHi ∧ extract (newStream.buf ++ frameHi) = some (frameHi, []) ∧
      Next sampleUnmarshal newStream (okRead frameHi)
        = (⟨none, []⟩, parseChunk sampleUnmarshal frameHi)) :=
  ⟨⟨by decide,
      (Next_extracts_verbatim sampleUnmarshal ⟨none, bytes "ab"⟩ (frameHe ++ frameLlo)).1
        frameHe frameLlo (by decide)⟩,
    ⟨by decide,
      (Next_extracts_verbatim sampleUnmarshal newStream frameHi).2 rfl (by decide)⟩⟩

/-- Claim C5, refuted as stated: on a stream that is done (a read reported
end-of-stream) a call of `Next` whose read succeeds and delivers `frameHi` returns
`hi`, not the empty string. -/
theorem Next_after_done_returns_fragment :
    Stream.Done ⟨some GoError.eof, []⟩ = true ∧
      Next sampleUnmarshal ⟨some GoError.eof, []⟩ (okRead frameHi)
        = (⟨some GoError.eof, []⟩, some "hi") := by
  decide

/-- Claim C5, amended: on a stream that is done, the stream is still done after every
call of `Next`, whatever its read returns, and the call returns the empty string
whenever its read fails. -/
theorem Next_done_is_sticky (unmarshal : Unmarshal) (s : Stream) (r : ReadResult)
    (h : s.Done = true) :
    (Next unmarshal s r).1.Done = true ∧
      (r.err ≠ none → (Next unmarshal s r).2 = some "") := by
  unfold Next
  cases hr : r.err with
  | some e => simp [Stream.Done]
  | none =>
    cases hx : extract (s.buf ++ r.data) with
    | none => simpa [Stream.Done] using h
    | some p => simpa [Stream.Done] using h

/-- A done stream with a complete object still buffered, read again at end-of-stream. -/
theorem Next_done_is_sticky_witness :
    Stream.Done ⟨some GoError.eof, frameLlo⟩ = true ∧
      eofRead.err ≠ none ∧
      (Next sampleUnmarshal ⟨some GoError.eof, frameLlo⟩ eofRead).1.Done = true ∧
      (Next sampleUnmarshal ⟨some GoError.eof, frameLlo⟩ eofRead).2 = some "" :=
  ⟨by decide, by decide,
    (Next_done_is_sticky sampleUnmarshal ⟨some GoError.eof, frameLlo⟩ eofRead
      (by decide)).1,
    (Next_done_is_sticky sampleUnmarshal ⟨some GoError.eof, frameLlo⟩ eofRead
      (by decide)).2 (by decide)⟩

/-- Claim C6: when decoding a frame fails, `parseChunk` returns the empty string, and
a call of `Next` that extracted the frame returns the empty string, leaves `Err()` and
`Done()` as they were, and leaves in the buffer exactly what followed the frame. -/
theorem Next_decode_error_is_swallowed (unmarshal : Unmarshal) (obj : List Byte)
    (e : GoError) (he : unmarshal obj = Except.error e) :
    parseChunk unmarshal obj = some "" ∧
      ∀ (s : Stream) (d rest : List Byte), extract (s.buf ++ d) = some (obj, rest) →
        Next unmarshal s (okRead d) = ({ s with buf := rest }, some "") ∧
        (Next unmarshal s (okRead d)).1.Err = s.Err ∧
        (Next unmarshal s (okRead d)).1.Done = s.Done ∧
        (Next unmarshal s (okRead d)).1.buf = rest ∧
        ∃ pre, s.buf ++ d = pre ++ obj ++ rest := by
  have hp : parseChunk unmarshal obj = some "" := by simp only [parseChunk, he]
  refine ⟨hp, ?_⟩
  intro s d rest h
  have hn : Next unmarshal s (okRead d) = ({ s with buf := rest }, some "") := by
    simp only [Next, okRead, h, hp]
  obtain ⟨pre, hpre, _⟩ := extract_sound h
  rw [hn]
  exact ⟨rfl, rfl, rfl, rfl, pre, hpre⟩

/-- A balanced span that is not JSON, followed in the same read by a good frame. -/
theorem Next_decode_error_is_swallowed_witness :
    sampleUnmarshal frameBad = Except.error (GoError.msg "invalid character") ∧
      extract (newStream.buf ++ (frameBad ++ frameHi)) = some (frameBad, frameHi) ∧
      parseChunk sampleUnmarshal frameBad = some "" ∧
      Next sampleUnmarshal newStream (okRead (frameBad ++ frameHi))
        = (⟨none, frameHi⟩, some "") ∧
      (Next sampleUnmarshal newStream (okRead (frameBad ++ frameHi))).1.Done = false :=
  have h := Next_decode_error_is_swallowed sampleUnmarshal frameBad
    (GoError.msg "invalid character") (by decide)
  have h2 := h.2 newStream (frameBad ++ frameHi) frameHi (by decide)
  ⟨by decide, by decide, h.1, h2.1, h2.2.2.1⟩

/-- Claim C7: on a frame that decodes, `parseChunk` returns the delta content of the
first choice when there is one and panics (index out of range) when the choices list
is empty, and then so does the call of `Next` that extracted the frame; `parseChunk`
returns normally exactly when decoding failed or the choices list is non-empty. -/
theorem parseChunk_first_choice_or_panic (unmarshal : Unmarshal) (obj : List Byte) :
    (∀ chunk c cs, unmarshal obj = Except.ok chunk → chunk.Choices = c :: cs →
      parseChunk unmarshal obj = some c.Delta.Content) ∧
    (∀ chunk, unmarshal obj = Except.ok chunk → chunk.Choices = [] →
      parseChunk unmarshal obj = none ∧
      ∀ (s : Stream) (d rest : List Byte), extract (s.buf ++ d) = some (obj, rest) →
        (Next unmarshal s (okRead d)).2 = none) ∧
    ((parseChunk unmarshal obj).isSome = true ↔
      (∃ e, unmarshal obj = Except.error e) ∨
        ∃ chunk, unmarshal obj = Except.ok chunk ∧ chunk.Choices ≠ []) := by
  refine ⟨?_, ?_, ?_⟩
  · intro chunk c cs hu hc
    simp only [parseChunk, hu, hc]
  · intro chunk hu hc
    have hp : parseChunk unmarshal obj = none := by simp only [parseChunk, hu, hc]
    refine ⟨hp, ?_⟩
    intro s d rest h
    simp only [Next, okRead, h, hp]
  · unfold parseChunk
    cases hu : unmarshal obj with
    | error e => simp
    | ok chunk =>
      cases hc : chunk.Choices with
      | nil => simp [hc]
      | cons c cs => simp [hc]

/-- The frame carrying `hi`, and the empty object, on which the streaming path panics. -/
theorem parseChunk_first_choice_or_panic_witness :
    parseChunk sampleUnmarshal frameHi = some "hi" ∧
      parseChunk sampleUnmarshal frameEmpty = none ∧
      (Next sampleUnmarshal newStream (okRead frameEmpty)).2 = none ∧
      streamChat sampleUnmarshal [frameEmpty] newStream = none :=
  have h0 := (parseChunk_first_choice_or_panic sampleUnmarshal frameEmpty).2.1
    ⟨[]⟩ (by decide) rfl
  ⟨(parseChunk_first_choice_or_panic sampleUnmarshal frameHi).1
      ⟨[⟨⟨"hi"⟩⟩]⟩ ⟨⟨"hi"⟩⟩ [] (by decide) rfl,
    h0.1, h0.2 newStream frameEmpty [] (by decide), by decide⟩

/-- Claim C8, the code at a failing input: on a response body that is not JSON
`ChatSync` returns the empty string with a nil error, so `syncChat` prints an empty
line and the process ends with status 0; the other two failures of `ChatSync` (the
request failing, an empty choices list) do return an error. -/
theorem ChatSync_decode_failure_returns_nil :
    sampleDecode bodyHtml = Except.error (GoError.msg "invalid character") ∧
      ChatSync sampleDecode (Except.ok bodyHtml) = ("", none) ∧
      syncChat sampleDecode (Except.ok bodyHtml) = ("\n", 0) ∧
      syncChat sampleDecode (Except.error (GoError.msg "completions: bad status code 500"))
        = ("chat: something went wrong: completions: bad status code 500\n", 1) ∧
      syncChat sampleDecode (Except.ok bodyHi) = ("hi\n", 0) := by
  decide

/-- Claim C9: every span that `Next` hands to the decoder, whatever the buffer held
before and whatever the read delivered, begins with an opening brace, ends with a
closing brace, has as many closing as opening braces, and has strictly more opening
than closing braces in each of its non-empty proper prefixes. -/
theorem Next_frame_balanced (unmarshal : Unmarshal) (s : Stream) (d obj rest : List Byte)
    (h : extract (s.buf ++ d) = some (obj, rest)) :
    Next unmarshal s (okRead d) = ({ s with buf := rest }, parseChunk unmarshal obj) ∧
      obj.head? = some lbrace ∧ obj.getLast? = some rbrace ∧
      obj.count lbrace = obj.count rbrace ∧
      ∀ k, 0 < k → k < obj.length →
        (obj.take k).count rbrace < (obj.take k).count lbrace := by
  obtain ⟨_, _, hhead, hlast, hdepth, hpre⟩ := extract_sound h
  refine ⟨by simp only [Next, okRead, h], hhead, hlast, ?_, ?_⟩
  · unfold depth at hdepth
    omega
  · intro k hk hlt
    have := hpre k hlt hk
    unfold depth at this
    omega

/-- A buffer holding a stray closing brace, garbage and a stray opening brace, then a
read delivering a frame followed by more stray braces. -/
theorem Next_frame_balanced_witness :
    extract (bytes "\x7d x \x7b" ++ (frameHi ++ bytes "\x7d\x7b"))
        = some (frameHi, bytes "\x7d\x7b") ∧
      (Next sampleUnmarshal ⟨none, bytes "\x7d x \x7b"⟩
          (okRead (frameHi ++ bytes "\x7d\x7b"))
        = (⟨none, bytes "\x7d\x7b"⟩, parseChunk sampleUnmarshal frameHi) ∧
      frameHi.head? = some lbrace ∧ frameHi.getLast? = some rbrace ∧
      frameHi.count lbrace = frameHi.count rbrace ∧
      ∀ k, 0 < k → k < frameHi.length →
        (frameHi.take k).count rbrace < (frameHi.take k).count lbrace) :=
  ⟨by decide,
    Next_frame_balanced sampleUnmarshal ⟨none, bytes "\x7d x \x7b"⟩
      (frameHi ++ bytes "\x7d\x7b") frameHi (bytes "\x7d\x7b") (by decide)⟩

/-- Claim C10: the payload `frameBraceInString`, one complete JSON object with an
opening brace inside a string literal, delivered by one successful read into an empty
buffer: the scan finds no frame, `Next` returns the empty string and the whole payload
stays in the buffer. -/
theorem Next_brace_in_string_not_extracted (unmarshal : Unmarshal) (err : Option GoError) :
    extract ([] ++ frameBraceInString) = none ∧
      Next unmarshal ⟨err, []⟩ (okRead frameBraceInString)
        = (⟨err, frameBraceInString⟩, some "") := by
  have h : extract ([] ++ frameBraceInString) = none := by decide
  refine ⟨h, ?_⟩
  simp only [Next, okRead, h]
  rfl

end Chat
